import Mathlib

/-! # Verification of the smartpatcher pattern lexer, structural matcher and splicer

Shallow embedding of the nesting-aware patcher (`src/patcher.js`, second
program in the file: `lexMatch`, `findInsertionOffset` and the splice block of
`main`).  Text is modelled as `List Char`, JS numbers as `Nat`/`Int`,
JS `null` as `Option`.  The lexer's `while` loop is modelled with an explicit
fuel equal to the input length (every iteration consumes at least one
character, so this fuel never runs out); the matcher's recursion carries a fuel
equal to the pattern length plus one (every recursive call advances the
pattern cursor). -/

namespace SmartPatcher

/-- Token kinds produced by the pattern lexer (`type` field of the JS token
objects). -/
inductive PTokType where
  | wildcard
  | inserter
  | folder
  | directive
  | string
  | comment
  | operator
  | identifier
  | number
  | bracket
  | symbol
deriving Repr, DecidableEq

/-- A pattern token: `{ type, text, nestingLevel }` as pushed by `lexMatch`. -/
structure PTok where
  type : PTokType
  text : List Char
  nestingLevel : Int
deriving Repr, DecidableEq

/-- A source token: `{ text, startIndex, nestingLevel }` as produced by
`getLeafTokens` (the external source-token provider of spec section 6). -/
structure SrcTok where
  text : List Char
  startIndex : Nat
  nestingLevel : Int
deriving Repr, DecidableEq

/-- JS `/\s/` on the ASCII range: space, tab, newline, carriage return,
vertical tab, form feed. -/
def isSpace (c : Char) : Bool :=
  c == ' ' || c == '\t' || c == '\n' || c == '\r' || c == '\x0b' || c == '\x0c'

/-- First character class of `[A-Za-z_]` in the identifier and directive
regexes. -/
def isIdentStart (c : Char) : Bool :=
  (decide ('A' ≤ c ∧ c ≤ 'Z')) || (decide ('a' ≤ c ∧ c ≤ 'z')) || c == '_'

/-- JS `\d`. -/
def isDigit (c : Char) : Bool :=
  decide ('0' ≤ c ∧ c ≤ '9')

/-- JS `\w` = `[A-Za-z0-9_]`. -/
def isWordChar (c : Char) : Bool :=
  isIdentStart c || isDigit c

/-- `text.startsWith(p, i)` on the suffix starting at `i`. -/
def startsWithL : List Char → List Char → Bool
  | [], _ => true
  | _ :: _, [] => false
  | p :: ps, c :: cs => p == c && startsWithL ps cs

/-- The two-character operator alternatives of the
`/^(==|!=|<=|>=|\+\+|--|->|&&|\|\||<<|>>)/` regex, in alternation order. -/
def multiOps : List (List Char) :=
  [['=','='], ['!','='], ['<','='], ['>','='], ['+','+'], ['-','-'],
   ['-','>'], ['&','&'], ['|','|'], ['<','<'], ['>','>']]

/-- First multi-character operator matching at the current position. -/
def findMultiOp (cs : List Char) : Option (List Char) :=
  multiOps.find? (fun op => startsWithL op cs)

/-- The bracket character class `/[{(}\[\])]/` of the lexer. -/
def isBracketChar (c : Char) : Bool :=
  c == '{' || c == '(' || c == '}' || c == '[' || c == ']' || c == ')'

/-- Splits `cs` at the first occurrence of the two-character sequence
closing a block comment, mirroring `text.indexOf('*' + '/', i + 2)`:
returns the part before it and the part after it, or `none`. -/
def splitAtStarSlash : List Char → Option (List Char × List Char)
  | [] => none
  | '*' :: '/' :: rest => some ([], rest)
  | c :: rest => (splitAtStarSlash rest).map (fun pr => (c :: pr.1, pr.2))

/-- `stringParts.push({type:'string', text:...})` guarded by `start < j`:
an empty fragment is not emitted. -/
def flushFrag (nest : Int) (frag : List Char) : List PTok :=
  if frag.isEmpty then [] else [⟨.string, frag, nest⟩]

/-- The inner `while` loop of the string-literal branch of `lexMatch`:
scans until the closing quote, splitting the literal at embedded three-greater
or three-less markers and skipping the character after a backslash.  Returns
the emitted fragment and marker tokens, whether a closing quote was found, and
the remaining input (past the closing quote when found). -/
def lexStrAux (q : Char) (nest : Int) (frag : List Char) :
    List Char → List PTok × Bool × List Char
  | [] => (flushFrag nest frag, false, [])
  | [c] =>
    if c == q then (flushFrag nest frag, true, [])
    else if c == '\\' then (flushFrag nest (frag ++ [c]), false, [])
    else (flushFrag nest (frag ++ [c]), false, [])
  | [c, d] =>
    if c == q then (flushFrag nest frag, true, [d])
    else if c == '\\' then (flushFrag nest (frag ++ [c, d]), false, [])
    else lexStrAux q nest (frag ++ [c]) [d]
  | c :: d :: e :: rest =>
    if c == q then (flushFrag nest frag, true, d :: e :: rest)
    else if c == '\\' then lexStrAux q nest (frag ++ [c, d]) (e :: rest)
    else if c == '>' && d == '>' && e == '>' then
      let more := lexStrAux q nest [] rest
      (flushFrag nest frag ++ ⟨.inserter, ['>','>','>'], nest⟩ :: more.1,
       more.2.1, more.2.2)
    else if c == '<' && d == '<' && e == '<' then
      let more := lexStrAux q nest [] rest
      (flushFrag nest frag ++ ⟨.folder, ['<','<','<'], nest⟩ :: more.1,
       more.2.1, more.2.2)
    else lexStrAux q nest (frag ++ [c]) (d :: e :: rest)

/-- The main `while` loop of `lexMatch` (nesting-aware version), with fuel.
Branch order follows the source: whitespace, the three meta markers,
preprocessor directive, string literal, line and block comments, two-character
operators, identifiers, numbers, brackets (tracking curly-brace nesting), and
single-character symbols. -/
def lexLoop : Nat → Int → List Char → List PTok
  | 0, _, _ => []
  | _ + 1, _, [] => []
  | fuel + 1, nest, c :: rest =>
    if isSpace c then lexLoop fuel nest rest
    else if startsWithL ['.','.','.'] (c :: rest) then
      ⟨.wildcard, ['.','.','.'], nest⟩ :: lexLoop fuel nest (rest.drop 2)
    else if startsWithL ['>','>','>'] (c :: rest) then
      ⟨.inserter, ['>','>','>'], nest⟩ :: lexLoop fuel nest (rest.drop 2)
    else if startsWithL ['<','<','<'] (c :: rest) then
      ⟨.folder, ['<','<','<'], nest⟩ :: lexLoop fuel nest (rest.drop 2)
    else if c == '#' && (match rest with | d :: _ => isIdentStart d | [] => false) then
      ⟨.directive, '#' :: rest.takeWhile isWordChar, nest⟩ ::
        lexLoop fuel nest (rest.dropWhile isWordChar)
    else if c == '"' || c == '\'' then
      let res := lexStrAux c nest [] rest
      ⟨.string, [c], nest⟩ ::
        (res.1 ++ (if res.2.1 then [⟨.string, [c], nest⟩] else []) ++
          lexLoop fuel nest res.2.2)
    else if startsWithL ['/','/'] (c :: rest) then
      ⟨.comment, '/' :: '/' :: (rest.drop 1).takeWhile (fun x => !(x == '\n')), nest⟩ ::
        lexLoop fuel nest ((rest.drop 1).dropWhile (fun x => !(x == '\n')))
    else if startsWithL ['/','*'] (c :: rest) then
      match splitAtStarSlash (rest.drop 1) with
      | some pr =>
        ⟨.comment, '/' :: '*' :: (pr.1 ++ ['*','/']), nest⟩ :: lexLoop fuel nest pr.2
      | none => [⟨.comment, '/' :: '*' :: rest.drop 1, nest⟩]
    else
      match findMultiOp (c :: rest) with
      | some op => ⟨.operator, op, nest⟩ :: lexLoop fuel nest (rest.drop 1)
      | none =>
        if isIdentStart c then
          ⟨.identifier, c :: rest.takeWhile isWordChar, nest⟩ ::
            lexLoop fuel nest (rest.dropWhile isWordChar)
        else if isDigit c then
          ⟨.number, c :: rest.takeWhile isDigit, nest⟩ ::
            lexLoop fuel nest (rest.dropWhile isDigit)
        else if isBracketChar c then
          if c == '{' then ⟨.bracket, [c], nest + 1⟩ :: lexLoop fuel (nest + 1) rest
          else if c == '}' then ⟨.bracket, [c], nest⟩ :: lexLoop fuel (nest - 1) rest
          else ⟨.bracket, [c], nest⟩ :: lexLoop fuel nest rest
        else ⟨.symbol, [c], nest⟩ :: lexLoop fuel nest rest

/-- `lexMatch(text)`: the pattern lexer, starting at nesting level 0.  The
fuel `cs.length` is sufficient because every loop iteration consumes at least
one character. -/
def lexMatch (cs : List Char) : List PTok :=
  lexLoop cs.length 0 cs

/-- The state of `findInsertionOffset`'s search: the `insertionOffset` and
`deleteOffset` closure variables.  They are assigned during the recursion and
never restored on backtracking, so they are threaded through every call. -/
structure MatchState where
  insertionOffset : Option Nat
  deleteOffset : Option Nat
deriving Repr, DecidableEq

/-- The object `findInsertionOffset` returns on success. -/
structure MatchVal where
  insertionOffset : Nat
  deleteOffset : Option Nat
deriving Repr, DecidableEq

/-- The expression `si >= sourceTokens.length ? srcLength : sourceTokens[si].startIndex`. -/
def offsetAt (sourceTokens : List SrcTok) (srcLength si : Nat) : Nat :=
  match sourceTokens[si]? with
  | some t => t.startIndex
  | none => srcLength

/-- Token types the wildcard branch skips when it looks for the next hard
pattern token. -/
def isMetaType (t : PTokType) : Bool :=
  t == .wildcard || t == .comment || t == .folder || t == .inserter

/-- Length of the run of consecutive meta tokens at the front of a pattern
suffix: the `while` loop advancing `nextIdx`. -/
def metaRun : List PTok → Nat
  | [] => 0
  | t :: ts => if isMetaType t.type then metaRun ts + 1 else 0

/-- The third argument passed to the recursive call in the wildcard loop,
`sourceTokens[sj]?.nestingLevel || currentNestingLevel`: JS `||` falls back
when the left side is `undefined` (index out of range) or `0`. -/
def nextCnl (sourceTokens : List SrcTok) (sj : Nat) (cnl : Int) : Int :=
  match sourceTokens[sj]? with
  | some t => if t.nestingLevel = 0 then cnl else t.nestingLevel
  | none => cnl

/-- The `for (let sj = si; sj <= sourceTokens.length; sj++)` loop of the
wildcard branch.  `cont` is the recursive call `recurse(sj, pi + 1, ...)` at
one deeper recursion level; `count` counts the remaining loop iterations
(`sourceTokens.length + 1 - sj`).  The three `continue` guards only apply
while `sj < sourceTokens.length`.  A `none` result means the inner recursion
ran out of fuel; `some (st, none)` means the loop finished and returned
`null`. -/
def wildLoopGo (cont : MatchState → Nat → Int → Option (MatchState × Option Nat))
    (sourceTokens : List SrcTok) (p nextTok : PTok) (cnl : Int) :
    Nat → Nat → MatchState → Option (MatchState × Option Nat)
  | 0, _, st => some (st, none)
  | count + 1, sj, st =>
    match sourceTokens[sj]? with
    | some t =>
      if t.nestingLevel ≠ p.nestingLevel then
        wildLoopGo cont sourceTokens p nextTok cnl count (sj + 1) st
      else if t.text ≠ nextTok.text then
        wildLoopGo cont sourceTokens p nextTok cnl count (sj + 1) st
      else if nextTok.text = ['}'] ∧ t.nestingLevel ≠ nextTok.nestingLevel then
        wildLoopGo cont sourceTokens p nextTok cnl count (sj + 1) st
      else
        match cont st sj (nextCnl sourceTokens sj cnl) with
        | none => none
        | some (st2, r) =>
          if r.isSome then some (st2, r)
          else wildLoopGo cont sourceTokens p nextTok cnl count (sj + 1) st2
    | none =>
      match cont st sj (nextCnl sourceTokens sj cnl) with
      | none => none
      | some (st2, r) =>
        if r.isSome then some (st2, r)
        else wildLoopGo cont sourceTokens p nextTok cnl count (sj + 1) st2

/-- The `recurse(si, pi, currentNestingLevel)` function of
`findInsertionOffset` (nesting-aware version), with a fuel counting recursion
depth: every recursive call advances the pattern cursor, so fuel
`patternTokens.length + 1 - pi` is sufficient.  Branches in source order:
end of pattern, comment, inserter, folder, wildcard, hard literal.
Result `some (st, r)` pairs the final state of the mutated closure variables
with the JS return value (`none` for `null`). -/
def recurseF (sourceTokens : List SrcTok) (patternTokens : List PTok) (srcLength : Nat) :
    Nat → MatchState → Nat → Nat → Int → Option (MatchState × Option Nat)
  | 0, _, _, _, _ => none
  | fuel + 1, st, si, pi, cnl =>
    match patternTokens[pi]? with
    | none => some (st, st.insertionOffset)
    | some p =>
      if p.type = .comment then
        recurseF sourceTokens patternTokens srcLength fuel st si (pi + 1) cnl
      else if p.type = .inserter then
        recurseF sourceTokens patternTokens srcLength fuel
          ⟨some (offsetAt sourceTokens srcLength si), st.deleteOffset⟩ si (pi + 1) cnl
      else if p.type = .folder then
        recurseF sourceTokens patternTokens srcLength fuel
          ⟨st.insertionOffset, some (offsetAt sourceTokens srcLength si)⟩ si (pi + 1) cnl
      else if p.type = .wildcard then
        let nextIdx := pi + 1 + metaRun (patternTokens.drop (pi + 1))
        match patternTokens[nextIdx]? with
        | none => recurseF sourceTokens patternTokens srcLength fuel st
            sourceTokens.length nextIdx cnl
        | some nextTok =>
          wildLoopGo
            (fun st2 sj cnl2 =>
              recurseF sourceTokens patternTokens srcLength fuel st2 sj (pi + 1) cnl2)
            sourceTokens p nextTok cnl (sourceTokens.length + 1 - si) si st
      else
        match sourceTokens[si]? with
        | some s =>
          if s.text = p.text ∧ s.nestingLevel = p.nestingLevel then
            recurseF sourceTokens patternTokens srcLength fuel st (si + 1) (pi + 1)
              s.nestingLevel
          else some (st, none)
        | none => some (st, none)

/-- `findInsertionOffset(sourceTokens, patternTokens, srcLength)` of the
nesting-aware version: the two whole-file special cases checked on token
types alone, then the backtracking search; the thrown error (no
`insertionOffset` recorded) is modelled as `none`.  Note that the code
ignores the return value of `recurse(0, 0, 0)` and only inspects the mutated
`insertionOffset` variable. -/
def findInsertionOffset (sourceTokens : List SrcTok) (patternTokens : List PTok)
    (srcLength : Nat) : Option MatchVal :=
  if patternTokens.map (fun t => t.type) = [.inserter, .wildcard, .folder] then
    some ⟨0, some srcLength⟩
  else if patternTokens.map (fun t => t.type) = [.wildcard, .inserter] then
    some ⟨srcLength, none⟩
  else
    match recurseF sourceTokens patternTokens srcLength (patternTokens.length + 1)
        ⟨none, none⟩ 0 0 0 with
    | none => none
    | some (st, _) =>
      match st.insertionOffset with
      | none => none
      | some io => some ⟨io, st.deleteOffset⟩

/-- `text.split(/\r?\n/)`: a line break is a newline optionally preceded by a
carriage return; a lone carriage return does not split. -/
def splitLinesRN : List Char → List (List Char)
  | [] => [[]]
  | '\r' :: '\n' :: rest => [] :: splitLinesRN rest
  | '\n' :: rest => [] :: splitLinesRN rest
  | c :: rest =>
    match splitLinesRN rest with
    | [] => [[c]]
    | l :: ls => (c :: l) :: ls

/-- `line.includes(ch.repeat(3))`, used as `line.includes('>>>')`. -/
def containsTriple (ch : Char) : List Char → Bool
  | [] => false
  | c :: rest => startsWithL [ch, ch, ch] (c :: rest) || containsTriple ch rest

/-- JS `String.trim` on the ASCII range. -/
def trimBoth (cs : List Char) : List Char :=
  ((cs.dropWhile isSpace).reverse.dropWhile isSpace).reverse

/-- `matchLines.find(line => line.includes('>>>')) || ''`: the first line of
the match snippet containing the inserter marker, or the empty string. -/
def inserterLineOf (matchText : List Char) : List Char :=
  ((splitLinesRN matchText).find? (fun l => containsTriple '>' l)).getD []

/-- `isInline = inserterLine.trim() !== '>>>'`. -/
def isInlineOf (matchText : List Char) : Bool :=
  !(trimBoth (inserterLineOf matchText) == ['>','>','>'])

/-- `beforeRaw = src.slice(0, offset)`. -/
def spliceBeforeRaw (src : List Char) (offset : Nat) : List Char :=
  src.take offset

/-- `afterLastNl = beforeRaw.slice(lastNlIdx + 1)`: the text after the last
newline of `beforeRaw`, or all of it when it has no newline
(`lastIndexOf` returned `-1`). -/
def spliceAfterLastNl (src : List Char) (offset : Nat) : List Char :=
  ((spliceBeforeRaw src offset).reverse.takeWhile (fun c => !(c == '\n'))).reverse

/-- `beforeRaw.slice(0, lastNlIdx + 1)`: up to and including the last
newline of `beforeRaw` (empty when it has none). -/
def spliceBeforeHead (src : List Char) (offset : Nat) : List Char :=
  (spliceBeforeRaw src offset).take
    ((spliceBeforeRaw src offset).length - (spliceAfterLastNl src offset).length)

/-- `indent = afterLastNl.match(/^\s*/)?.[0] || ''`. -/
def spliceIndent (src : List Char) (offset : Nat) : List Char :=
  (spliceAfterLastNl src offset).takeWhile isSpace

/-- `beforeBase`: `beforeRaw` with a whitespace-only placeholder line removed,
and, for inline insertion, with a single trailing newline removed. -/
def spliceBeforeBase (src : List Char) (offset : Nat) (isInline : Bool) : List Char :=
  let b := if (spliceAfterLastNl src offset).all isSpace then spliceBeforeHead src offset
    else spliceBeforeRaw src offset
  if isInline && (b.getLast? == some '\n') then b.dropLast else b

/-- `needsNl = !isInline && offset !== 0 && !beforeBase.endsWith('\n')`. -/
def spliceNeedsNl (src : List Char) (offset : Nat) (isInline : Bool) : Bool :=
  !isInline && !(offset == 0) &&
    !((spliceBeforeBase src offset isInline).getLast? == some '\n')

/-- `patchedLines`: the trimmed patch for inline insertion, otherwise each
patch line prefixed with the insertion point's indentation. -/
def splicePatchedLines (src : List Char) (offset : Nat) (isInline : Bool)
    (patch : List Char) : List Char :=
  if isInline then trimBoth patch
  else List.intercalate ['\n']
    ((splitLinesRN patch).map (fun l => spliceIndent src offset ++ l))

/-- `insertText = (needsNl ? '\n' : '') + patchedLines`. -/
def spliceInsertText (src : List Char) (offset : Nat) (isInline : Bool)
    (patch : List Char) : List Char :=
  (if spliceNeedsNl src offset isInline then ['\n'] else []) ++
    splicePatchedLines src offset isInline patch

/-- `tailStart = (deleteOffset != null && deleteOffset > offset) ? deleteOffset : offset`. -/
def spliceTailStart (offset : Nat) (deleteOffset : Option Nat) : Nat :=
  match deleteOffset with
  | some d => if d > offset then d else offset
  | none => offset

/-- `result = beforeBase + insertText + src.slice(tailStart)`: the patched
text produced by the splice block of `main`. -/
def spliceResult (src : List Char) (offset : Nat) (deleteOffset : Option Nat)
    (isInline : Bool) (patch : List Char) : List Char :=
  spliceBeforeBase src offset isInline ++ spliceInsertText src offset isInline patch ++
    src.drop (spliceTailStart offset deleteOffset)

/-- Depth discipline of a pattern-token stream starting at level `n`: an
opening curly bracket token carries `n + 1` and raises the level, a closing
curly bracket token carries `n` and lowers it afterwards, every other token
carries the current level unchanged. -/
def depthsOk : Int → List PTok → Prop
  | _, [] => True
  | n, t :: ts =>
    if t.type = .bracket ∧ t.text = ['{'] then
      t.nestingLevel = n + 1 ∧ depthsOk (n + 1) ts
    else if t.type = .bracket ∧ t.text = ['}'] then
      t.nestingLevel = n ∧ depthsOk (n - 1) ts
    else
      t.nestingLevel = n ∧ depthsOk n ts

/-- An opening curly bracket token. -/
def isOpenBrace (t : PTok) : Bool :=
  t.type == .bracket && t.text == ['{']

/-- A closing curly bracket token. -/
def isCloseBrace (t : PTok) : Bool :=
  t.type == .bracket && t.text == ['}']

/-- Number of opening curly bracket tokens. -/
def countOpen (ts : List PTok) : Nat :=
  ts.countP isOpenBrace

/-- Number of closing curly bracket tokens. -/
def countClose (ts : List PTok) : Nat :=
  ts.countP isCloseBrace

/-- Every prefix of the token stream closes at most as many curly braces as
it opens. -/
def prefixBalancedB (ts : List PTok) : Bool :=
  (List.range (ts.length + 1)).all
    (fun k => decide (countClose (ts.take k) ≤ countOpen (ts.take k)))

/-- The wildcard loop's candidate filter, as the code implements it: the
position one past the last source token is always tried; a position inside
the source is tried exactly when its token's nesting depth equals the
wildcard token's own declared depth, its text equals the target's text and,
when the target is a closing curly brace, its depth also equals the target's
declared depth. -/
def acceptCand (sourceTokens : List SrcTok) (p nextTok : PTok) (sj : Nat) : Bool :=
  match sourceTokens[sj]? with
  | none => true
  | some t =>
    t.nestingLevel == p.nestingLevel && t.text == nextTok.text &&
      !(nextTok.text == ['}'] && !(t.nestingLevel == nextTok.nestingLevel))

/-- First-success traversal of an explicit candidate list: each candidate is
tried with the continuation, the mutated match state of a failed attempt is
threaded into the next attempt, and the first attempt returning a non-null
value wins. -/
def tryCands (cont : MatchState → Nat → Int → Option (MatchState × Option Nat))
    (sourceTokens : List SrcTok) (cnl : Int) :
    List Nat → MatchState → Option (MatchState × Option Nat)
  | [], st => some (st, none)
  | sj :: rest, st =>
    match cont st sj (nextCnl sourceTokens sj cnl) with
    | none => none
    | some (st2, r) =>
      if r.isSome then some (st2, r)
      else tryCands cont sourceTokens cnl rest st2

/-! ## Theorems -/

/-- C1: the claim says the matcher returns no result at all when the
backtracking search is exhausted.  The code disagrees: `recurse(0, 0, 0)`'s
return value is discarded, and the mutated `insertionOffset` variable alone
decides success.  On source token `b` and pattern `[Inserter, a]` the search
is exhausted (the recursion returns null, the first conjunct) yet the matcher
returns `{insertionOffset: 0, deleteOffset: null}` recorded on the failed
branch (the second conjunct). -/
theorem exhaustedSearchStillReturnsOffset :
    recurseF [⟨['b'], 0, 0⟩] [⟨.inserter, ['>','>','>'], 0⟩, ⟨.identifier, ['a'], 0⟩] 1 3
        ⟨none, none⟩ 0 0 0 = some (⟨some 0, none⟩, none) ∧
      findInsertionOffset [⟨['b'], 0, 0⟩]
        [⟨.inserter, ['>','>','>'], 0⟩, ⟨.identifier, ['a'], 0⟩] 1 = some ⟨0, none⟩ := by
  decide

/-- C2 counterexample: the claim says a wildcard candidate is accepted exactly
when its text equals the target's text and its depth equals the target's
declared depth.  Here the single source token `a` (depth 1) satisfies both
conditions against the target pattern token (third and fourth conjuncts show
text and depth equality, and that the pattern remainder starting at the
target does match at that position), yet prefixing the wildcard (declared at
depth 0) makes the match fail, because the loop compares the source depth
with the wildcard's own depth. -/
theorem wildcardDepthCounterexample :
    (⟨['a'], 5, 1⟩ : SrcTok).text = (⟨.identifier, ['a'], 1⟩ : PTok).text ∧
      (⟨['a'], 5, 1⟩ : SrcTok).nestingLevel = (⟨.identifier, ['a'], 1⟩ : PTok).nestingLevel ∧
      findInsertionOffset [⟨['a'], 5, 1⟩]
        [⟨.identifier, ['a'], 1⟩, ⟨.inserter, ['>','>','>'], 1⟩] 9 = some ⟨9, none⟩ ∧
      findInsertionOffset [⟨['a'], 5, 1⟩]
        [⟨.wildcard, ['.','.','.'], 0⟩, ⟨.identifier, ['a'], 1⟩, ⟨.inserter, ['>','>','>'], 1⟩] 9 =
        none := by
  decide

/-- C6: a marker inside an open string literal splits the literal: the text
before the marker, the marker itself (`Inserter` for the three-greater
marker, `Folder` for the three-less marker) and the remainder are separate
tokens, surrounded by the quote tokens; no single token spans the marker. -/
theorem stringEmbeddedMarkerLex :
    lexMatch "\"abc>>>def\"".toList =
      [⟨.string, ['"'], 0⟩, ⟨.string, ['a','b','c'], 0⟩, ⟨.inserter, ['>','>','>'], 0⟩,
       ⟨.string, ['d','e','f'], 0⟩, ⟨.string, ['"'], 0⟩] ∧
    lexMatch "\"abc<<<def\"".toList =
      [⟨.string, ['"'], 0⟩, ⟨.string, ['a','b','c'], 0⟩, ⟨.folder, ['<','<','<'], 0⟩,
       ⟨.string, ['d','e','f'], 0⟩, ⟨.string, ['"'], 0⟩] := by
  decide

/-- C7 counterexample: the claim says every token's nesting depth is
non-negative, but lexing an unbalanced closing brace followed by an
identifier assigns the identifier depth `-1`. -/
theorem negativeDepthCounterexample :
    lexMatch ['}', ' ', 'a'] =
      [⟨.bracket, ['}'], 0⟩, ⟨.identifier, ['a'], -1⟩] ∧
      ((lexMatch ['}', ' ', 'a']).get? 1).map (fun t => t.nestingLevel) = some (-1) ∧
      ¬(0 : Int) ≤ -1 := by
  decide

/-- C9 counterexample: patching source `"  a"` with a match fragment that
exactly reproduces its slice `[2, 3)` (the identifier `a`, with the inserter
marking the slice position and the folder its end) and a patch equal to that
same slice yields `"a"`, not the original source: the placeholder-line
removal deletes the two leading spaces. -/
theorem roundTripCounterexample :
    lexMatch ">>>a<<<".toList =
      [⟨.inserter, ['>','>','>'], 0⟩, ⟨.identifier, ['a'], 0⟩, ⟨.folder, ['<','<','<'], 0⟩] ∧
      isInlineOf ">>>a<<<".toList = true ∧
      findInsertionOffset [⟨['a'], 2, 0⟩] (lexMatch ">>>a<<<".toList) 3 = some ⟨2, some 3⟩ ∧
      "a".toList = List.drop 2 "  a".toList ∧
      spliceResult "  a".toList 2 (some 3) true "a".toList = "a".toList ∧
      "a".toList ≠ "  a".toList := by
  decide

/-- C4: the splice output is the adjusted prefix, then the insertion text,
then the source from `t` on, where `t` is the deletion offset exactly when it
is present and strictly greater than the insertion offset and the insertion
offset otherwise; so the byte range between the two offsets is removed in
that case and the source from `t` onward appears unchanged as the suffix. -/
theorem spliceTailCharacterization (src : List Char) (offset : Nat)
    (deleteOffset : Option Nat) (isInline : Bool) (patch : List Char) :
    spliceResult src offset deleteOffset isInline patch =
      spliceBeforeBase src offset isInline ++ spliceInsertText src offset isInline patch ++
        src.drop (match deleteOffset with
          | some d => if offset < d then d else offset
          | none => offset) := by
  cases deleteOffset with
  | none => rfl
  | some d => by_cases h : offset < d <;> simp [spliceResult, spliceTailStart, h]

/-- C3: the two whole-file special cases are recognised on token types alone,
before any general matching, so the result is independent of the source
tokens: `[Inserter, Wildcard, Folder]` replaces the entire file and
`[Wildcard, Inserter]` appends at its end. -/
theorem specialCasePatterns (sourceTokens sourceTokens2 : List SrcTok)
    (srcLength srcLength2 : Nat) (p q : List PTok)
    (hp : p.map (fun t => t.type) = [.inserter, .wildcard, .folder])
    (hq : q.map (fun t => t.type) = [.wildcard, .inserter]) :
    findInsertionOffset sourceTokens p srcLength = some ⟨0, some srcLength⟩ ∧
      findInsertionOffset sourceTokens2 q srcLength2 = some ⟨srcLength2, none⟩ := by
  constructor
  · simp [findInsertionOffset, hp]
  · simp [findInsertionOffset, hq]

/-- Witness for C3 at concrete patterns and sources. -/
theorem specialCasePatternsWitness :
    findInsertionOffset [⟨['x'], 7, 0⟩]
        [⟨.inserter, ['>','>','>'], 0⟩, ⟨.wildcard, ['.','.','.'], 0⟩, ⟨.folder, ['<','<','<'], 0⟩]
        42 = some ⟨0, some 42⟩ ∧
      findInsertionOffset []
        [⟨.wildcard, ['.','.','.'], 0⟩, ⟨.inserter, ['>','>','>'], 0⟩] 11 = some ⟨11, none⟩ :=
  specialCasePatterns _ _ _ _ _ _ (by decide) (by decide)

/-- C5: when the match snippet has a line containing the inserter marker (the
first such line is the one the code inspects), the insertion style is block
exactly when that line, trimmed of surrounding whitespace, is the bare
marker; otherwise the style is inline. -/
theorem inlineStyleIff (m l : List Char)
    (hfind : (splitLinesRN m).find? (fun l2 => containsTriple '>' l2) = some l) :
    isInlineOf m = false ↔ trimBoth l = ['>','>','>'] := by
  simp [isInlineOf, inserterLineOf, hfind]

/-- Witness for C5 on a snippet whose marker stands alone on its line. -/
theorem inlineStyleIffWitness :
    ((splitLinesRN "foo(\n >>> \n)".toList).find? (fun l2 => containsTriple '>' l2) =
        some [' ', '>', '>', '>', ' ']) ∧
      (isInlineOf "foo(\n >>> \n)".toList = false ↔
        trimBoth [' ', '>', '>', '>', ' '] = ['>','>','>']) :=
  ⟨by decide, inlineStyleIff _ _ (by decide)⟩

/-- C2 amended: the wildcard loop tries candidate source positions in
increasing order and returns the first one whose recursive continuation
succeeds, threading the mutated state through failed attempts; a position
inside the source is tried exactly when its token's text equals the target's
text and its nesting depth equals the *wildcard* token's own declared depth
(not, as the claim says, the target's declared depth - except that for a
closing-brace target the target's depth is additionally required), and the
position one past the last source token is always tried. -/
theorem wildcardLoopCandidates
    (cont : MatchState → Nat → Int → Option (MatchState × Option Nat))
    (sourceTokens : List SrcTok) (p nextTok : PTok) (cnl : Int) :
    ∀ (count sj : Nat) (st : MatchState),
      wildLoopGo cont sourceTokens p nextTok cnl count sj st =
        tryCands cont sourceTokens cnl
          ((List.range' sj count).filter (acceptCand sourceTokens p nextTok)) st := by
  intro count
  induction count with
  | zero => intro sj st; simp [wildLoopGo, tryCands]
  | succ n ih =>
    intro sj st
    rw [List.range'_succ, List.filter_cons]
    cases hget : sourceTokens[sj]? with
    | none =>
      have hacc : acceptCand sourceTokens p nextTok sj = true := by
        simp [acceptCand, hget]
      rw [hacc]
      simp only [if_true]
      simp only [wildLoopGo, hget, tryCands]
      cases hc : cont st sj (nextCnl sourceTokens sj cnl) with
      | none => rfl
      | some pr =>
        cases pr with
        | mk st2 r =>
          by_cases hr : r.isSome <;> simp [hr, ih]
    | some t =>
      by_cases h1 : t.nestingLevel = p.nestingLevel
      · by_cases h2 : t.text = nextTok.text
        · by_cases h3 : nextTok.text = ['}'] ∧ t.nestingLevel ≠ nextTok.nestingLevel
          · have hacc : acceptCand sourceTokens p nextTok sj = false := by
              simp only [acceptCand, hget]
              rw [h1] at h3
              simp [h1, h2, h3.1, h3.2]
            rw [hacc]
            simp only [if_false, Bool.false_eq_true, if_neg (by simp : ¬False)]
            simp only [wildLoopGo, hget]
            rw [if_neg (by simp [h1]), if_neg (by simp [h2]), if_pos h3]
            exact ih (sj + 1) st
          · have hacc : acceptCand sourceTokens p nextTok sj = true := by
              simp only [acceptCand, hget]
              simp only [not_and_or, not_not] at h3
              rcases h3 with h3 | h3
              · simp [h1, h2, h3]
              · have h3p : p.nestingLevel = nextTok.nestingLevel := by
                  rw [← h1]; exact h3
                simp [h1, h2, h3p]
            rw [hacc]
            simp only [if_true]
            simp only [wildLoopGo, hget]
            rw [if_neg (by simp [h1]), if_neg (by simp [h2]), if_neg h3]
            simp only [tryCands]
            cases hc : cont st sj (nextCnl sourceTokens sj cnl) with
            | none => rfl
            | some pr =>
              cases pr with
              | mk st2 r =>
                by_cases hr : r.isSome <;> simp [hr, ih]
        · have hacc : acceptCand sourceTokens p nextTok sj = false := by
            simp [acceptCand, hget, h2]
          rw [hacc]
          simp only [Bool.false_eq_true, if_false]
          simp only [wildLoopGo, hget]
          rw [if_neg (by simp [h1]), if_pos h2]
          exact ih (sj + 1) st
      · have hacc : acceptCand sourceTokens p nextTok sj = false := by
          simp [acceptCand, hget, h1]
        rw [hacc]
        simp only [Bool.false_eq_true, if_false]
        simp only [wildLoopGo, hget]
        rw [if_pos h1]
        exact ih (sj + 1) st

/-- When the text before the insertion offset ends in a newline, the line
fragment after the last newline is empty. -/
theorem afterLastNl_eq_nil_of_getLast_nl (src : List Char) (i : Nat)
    (h : (spliceBeforeRaw src i).getLast? = some '\n') :
    spliceAfterLastNl src i = [] := by
  unfold spliceAfterLastNl
  obtain ⟨t, ht⟩ : ∃ t, (spliceBeforeRaw src i).reverse = '\n' :: t := by
    cases hr : (spliceBeforeRaw src i).reverse with
    | nil =>
      rw [← List.head?_reverse, hr] at h
      simp at h
    | cons x xs =>
      rw [← List.head?_reverse, hr] at h
      simp at h
      exact ⟨xs, by rw [h]⟩
  rw [ht]
  simp

/-- C9 amended: the round trip does hold for an inline-style splice when the
patch equals the source slice between the insertion and deletion offsets, the
patch carries no leading or trailing whitespace, and the insertion offset is
either at the start of the file or preceded on its own line by some
non-whitespace character; without the last condition the placeholder-line
removal (or the inline trailing-newline removal) deletes source whitespace,
as the counterexample shows. -/
theorem inlineRoundTrip (src patch : List Char) (i d : Nat)
    (hid : i < d)
    (hpatch : patch = (src.take d).drop i)
    (htrim : trimBoth patch = patch)
    (hline : ¬((spliceAfterLastNl src i).all isSpace = true) ∨ i = 0) :
    spliceResult src i (some d) true patch = src := by
  have htail : spliceTailStart i (some d) = d := by
    simp [spliceTailStart, hid]
  have hinsert : spliceInsertText src i true patch = patch := by
    simp [spliceInsertText, spliceNeedsNl, splicePatchedLines, htrim]
  have hjoin : src.take i ++ (patch ++ src.drop d) = src := by
    rw [hpatch]
    have h1 : (src.take d).take i = src.take i := by
      rw [List.take_take, min_eq_left (le_of_lt hid)]
    calc src.take i ++ ((src.take d).drop i ++ src.drop d)
        = ((src.take d).take i ++ (src.take d).drop i) ++ src.drop d := by
          rw [h1, List.append_assoc]
      _ = src.take d ++ src.drop d := by rw [List.take_append_drop]
      _ = src := List.take_append_drop d src
  rcases hline with hline | rfl
  case inl =>
    have hplace : (spliceAfterLastNl src i).all isSpace = false := by
      cases h : (spliceAfterLastNl src i).all isSpace
      · rfl
      · exact absurd h hline
    have hnl : ((src.take i).getLast? == some '\n') = false := by
      cases h : ((src.take i).getLast? == some '\n')
      · rfl
      · exfalso
        apply hline
        have : spliceAfterLastNl src i = [] :=
          afterLastNl_eq_nil_of_getLast_nl src i (by
            simpa [spliceBeforeRaw] using (beq_iff_eq ..).mp h)
        rw [this]
        rfl
    have hbase : spliceBeforeBase src i true = src.take i := by
      simp only [spliceBeforeBase, hplace, Bool.false_eq_true, if_false, spliceBeforeRaw]
      rw [if_neg]
      simp only [spliceBeforeRaw] at hnl
      simp [hnl]
    rw [spliceResult, hbase, hinsert, htail, List.append_assoc, hjoin]
  case inr =>
    have hbase : spliceBeforeBase src 0 true = [] := by
      simp [spliceBeforeBase, spliceBeforeRaw, spliceAfterLastNl, spliceBeforeHead]
    have hjoin0 := hjoin
    rw [spliceResult, hbase, hinsert, htail]
    simpa using hjoin0

/-- Witness for C9 amended on source `"x a"`, replacing its slice `[2, 3)`
by itself. -/
theorem inlineRoundTripWitness :
    spliceResult "x a".toList 2 (some 3) true "a".toList = "x a".toList :=
  inlineRoundTrip _ _ _ _ (by decide) (by decide) (by decide) (Or.inl (by decide))

theorem flushFrag_mem (nest : Int) (frag : List Char) :
    ∀ t ∈ flushFrag nest frag, t.nestingLevel = nest ∧ t.type ≠ PTokType.bracket := by
  intro t ht
  unfold flushFrag at ht
  split at ht
  · simp at ht
  · simp at ht
    subst ht
    exact ⟨rfl, by simp⟩

theorem lexStrAux_rest_length (q : Char) (nest : Int) : ∀ (frag cs : List Char),
    (lexStrAux q nest frag cs).2.2.length ≤ cs.length := by
  intro frag cs
  induction frag, cs using lexStrAux.induct q nest with
  | case1 frag => simp [lexStrAux]
  | case2 frag c h => simp [lexStrAux, h]
  | case3 frag c h1 h2 => simp [lexStrAux, h1, h2]
  | case4 frag c h1 h2 => simp [lexStrAux, h1, h2]
  | case5 frag c d h => simp [lexStrAux, h]
  | case6 frag c d h1 h2 => simp [lexStrAux, h1, h2]
  | case7 frag c d h1 h2 ih =>
    simp only [lexStrAux, h1, h2]
    simp only [Bool.false_eq_true, if_false]
    exact le_trans ih (by simp)
  | case8 frag c d e rest h => simp [lexStrAux, h]
  | case9 frag c d e rest h1 h2 ih =>
    simp only [lexStrAux, h1, h2]
    simp only [Bool.false_eq_true, if_false, if_true]
    exact le_trans ih (by simp)
  | case10 frag c d e rest h1 h2 h3 ih =>
    simp only [lexStrAux, h1, h2, h3]
    simp only [Bool.false_eq_true, if_false, if_true]
    exact le_trans ih (by simp; omega)
  | case11 frag c d e rest h1 h2 h3 h4 ih =>
    simp only [lexStrAux, h1, h2, h3, h4]
    simp only [Bool.false_eq_true, if_false, if_true]
    exact le_trans ih (by simp; omega)
  | case12 frag c d e rest h1 h2 h3 h4 ih =>
    simp only [lexStrAux, h1, h2, h3, h4]
    simp only [Bool.false_eq_true, if_false]
    exact le_trans ih (by simp)

theorem lexStrAux_tokens (q : Char) (nest : Int) : ∀ (frag cs : List Char),
    ∀ t ∈ (lexStrAux q nest frag cs).1, t.nestingLevel = nest ∧ t.type ≠ PTokType.bracket := by
  intro frag cs
  induction frag, cs using lexStrAux.induct q nest with
  | case1 frag => exact fun t ht => flushFrag_mem nest frag t (by simpa [lexStrAux] using ht)
  | case2 frag c h =>
    exact fun t ht => flushFrag_mem nest frag t (by simpa [lexStrAux, h] using ht)
  | case3 frag c h1 h2 =>
    exact fun t ht => flushFrag_mem nest _ t (by simpa [lexStrAux, h1, h2] using ht)
  | case4 frag c h1 h2 =>
    exact fun t ht => flushFrag_mem nest _ t (by simpa [lexStrAux, h1, h2] using ht)
  | case5 frag c d h =>
    exact fun t ht => flushFrag_mem nest frag t (by simpa [lexStrAux, h] using ht)
  | case6 frag c d h1 h2 =>
    exact fun t ht => flushFrag_mem nest _ t (by simpa [lexStrAux, h1, h2] using ht)
  | case7 frag c d h1 h2 ih =>
    intro t ht
    refine ih t ?_
    simpa [lexStrAux, h1, h2] using ht
  | case8 frag c d e rest h =>
    exact fun t ht => flushFrag_mem nest frag t (by simpa [lexStrAux, h] using ht)
  | case9 frag c d e rest h1 h2 ih =>
    intro t ht
    refine ih t ?_
    simpa [lexStrAux, h1, h2] using ht
  | case10 frag c d e rest h1 h2 h3 ih =>
    intro t ht
    simp only [lexStrAux, h1, h2, h3] at ht
    simp only [Bool.false_eq_true, if_false, if_true] at ht
    rcases List.mem_append.mp ht with hf | hm
    · exact flushFrag_mem nest frag t hf
    · rcases List.mem_cons.mp hm with rfl | hrec
      · exact ⟨rfl, by simp⟩
      · exact ih t hrec
  | case11 frag c d e rest h1 h2 h3 h4 ih =>
    intro t ht
    simp only [lexStrAux, h1, h2, h3, h4] at ht
    simp only [Bool.false_eq_true, if_false, if_true] at ht
    rcases List.mem_append.mp ht with hf | hm
    · exact flushFrag_mem nest frag t hf
    · rcases List.mem_cons.mp hm with rfl | hrec
      · exact ⟨rfl, by simp⟩
      · exact ih t hrec
  | case12 frag c d e rest h1 h2 h3 h4 ih =>
    intro t ht
    refine ih t ?_
    simpa [lexStrAux, h1, h2, h3, h4] using ht

theorem length_dropWhile_le {α : Type} (p : α → Bool) (l : List α) :
    (l.dropWhile p).length ≤ l.length := by
  induction l with
  | nil => simp
  | cons c rest ih =>
    simp only [List.dropWhile]
    cases p c
    · simp
    · simpa using Nat.le_succ_of_le ih

theorem splitAtStarSlash_length (cs : List Char) (pr : List Char × List Char)
    (h : splitAtStarSlash cs = some pr) : pr.2.length ≤ cs.length := by
  induction cs using splitAtStarSlash.induct generalizing pr with
  | case1 => simp [splitAtStarSlash] at h
  | case2 rest =>
    simp [splitAtStarSlash] at h
    simp [← h]
    omega
  | case3 c rest hne ih =>
    rw [splitAtStarSlash.eq_3 c rest hne] at h
    cases hs : splitAtStarSlash rest with
    | none => rw [hs] at h; simp at h
    | some pr2 =>
      rw [hs] at h
      simp at h
      have := ih pr2 hs
      rw [← h]
      simp
      omega

theorem depthsOk_append_flat (n : Int) (xs ys : List PTok)
    (hxs : ∀ t ∈ xs, t.nestingLevel = n ∧ t.type ≠ PTokType.bracket)
    (hys : depthsOk n ys) : depthsOk n (xs ++ ys) := by
  induction xs with
  | nil => simpa using hys
  | cons x rest ih =>
    have hx := hxs x (by simp)
    have hrest : ∀ t ∈ rest, t.nestingLevel = n ∧ t.type ≠ PTokType.bracket :=
      fun t ht => hxs t (by simp [ht])
    simp only [List.cons_append, depthsOk]
    rw [if_neg (fun hcon => hx.2 hcon.1), if_neg (fun hcon => hx.2 hcon.1)]
    exact ⟨hx.1, ih hrest⟩

theorem depthsOk_lexLoop : ∀ (fuel : Nat) (nest : Int) (cs : List Char),
    cs.length ≤ fuel → depthsOk nest (lexLoop fuel nest cs) := by
  intro fuel nest cs
  induction fuel, nest, cs using lexLoop.induct with
  | case1 nest cs => intro _; simp [lexLoop, depthsOk]
  | case2 fuel nest => intro _; simp [lexLoop, depthsOk]
  | case3 fuel nest c rest h1 ih =>
    intro hlen
    simp only [lexLoop, h1, if_true]
    exact ih (by simp at hlen; omega)
  | case4 fuel nest c rest h1 h2 ih =>
    intro hlen
    simp only [lexLoop, h1, h2, Bool.false_eq_true, if_false, if_true]
    simp only [depthsOk]
    refine ⟨by trivial, ?_⟩
    refine ih ?_
    simp at hlen
    have := List.length_drop 2 rest
    omega
  | case5 fuel nest c rest h1 h2 h3 ih =>
    intro hlen
    simp only [lexLoop, h1, h2, h3, Bool.false_eq_true, if_false, if_true]
    simp only [depthsOk]
    refine ⟨by trivial, ?_⟩
    refine ih ?_
    simp at hlen
    have := List.length_drop 2 rest
    omega
  | case6 fuel nest c rest h1 h2 h3 h4 ih =>
    intro hlen
    simp only [lexLoop, h1, h2, h3, h4, Bool.false_eq_true, if_false, if_true]
    simp only [depthsOk]
    refine ⟨by trivial, ?_⟩
    refine ih ?_
    simp at hlen
    have := List.length_drop 2 rest
    omega
  | case7 fuel nest c rest h1 h2 h3 h4 h5 ih =>
    intro hlen
    simp only [lexLoop, h1, h2, h3, h4, h5, Bool.false_eq_true, if_false, if_true]
    simp only [depthsOk]
    refine ⟨by trivial, ?_⟩
    refine ih ?_
    simp at hlen
    have := length_dropWhile_le isWordChar rest
    omega
  | case8 fuel nest c rest h1 h2 h3 h4 h5 h6 res ih =>
    intro hlen
    simp only [lexLoop, h1, h2, h3, h4, h5, h6, Bool.false_eq_true, if_false, if_true]
    simp only [depthsOk]
    refine ⟨by trivial, ?_⟩
    refine depthsOk_append_flat nest _ _ ?_ ?_
    · intro t ht
      rcases List.mem_append.mp ht with hf | hif
      · exact lexStrAux_tokens c nest [] rest t hf
      · split at hif
        · simp at hif
          subst hif
          exact ⟨rfl, by simp⟩
        · simp at hif
    · have hres : res = lexStrAux c nest [] rest := rfl
      rw [hres] at ih
      refine ih ?_
      simp at hlen
      have := lexStrAux_rest_length c nest [] rest
      omega
  | case9 fuel nest c rest h1 h2 h3 h4 h5 h6 h7 ih =>
    intro hlen
    simp only [lexLoop, h1, h2, h3, h4, h5, h6, h7, Bool.false_eq_true, if_false, if_true]
    simp only [depthsOk]
    refine ⟨by trivial, ?_⟩
    refine ih ?_
    simp at hlen
    have h8 := length_dropWhile_le (fun x => !(x == '\n')) (rest.drop 1)
    have := List.length_drop 1 rest
    omega
  | case10 fuel nest c rest h1 h2 h3 h4 h5 h6 h7 h8 pr heq ih =>
    intro hlen
    simp only [lexLoop, h1, h2, h3, h4, h5, h6, h7, h8, Bool.false_eq_true, if_false,
      if_true, heq]
    simp only [depthsOk]
    refine ⟨by trivial, ?_⟩
    refine ih ?_
    simp at hlen
    have h9 := splitAtStarSlash_length (rest.drop 1) pr heq
    have := List.length_drop 1 rest
    omega
  | case11 fuel nest c rest h1 h2 h3 h4 h5 h6 h7 h8 heq =>
    intro hlen
    simp only [lexLoop, h1, h2, h3, h4, h5, h6, h7, h8, Bool.false_eq_true, if_false,
      if_true, heq]
    simp [depthsOk]
  | case12 fuel nest c rest h1 h2 h3 h4 h5 h6 h7 h8 op heq ih =>
    intro hlen
    simp only [lexLoop, h1, h2, h3, h4, h5, h6, h7, h8, Bool.false_eq_true, if_false,
      if_true, heq]
    simp only [depthsOk]
    refine ⟨by trivial, ?_⟩
    refine ih ?_
    simp at hlen
    have := List.length_drop 1 rest
    omega
  | case13 fuel nest c rest h1 h2 h3 h4 h5 h6 h7 h8 heq h9 ih =>
    intro hlen
    simp only [lexLoop, h1, h2, h3, h4, h5, h6, h7, h8, h9, Bool.false_eq_true, if_false,
      if_true, heq]
    simp only [depthsOk]
    refine ⟨by trivial, ?_⟩
    refine ih ?_
    simp at hlen
    have := length_dropWhile_le isWordChar rest
    omega
  | case14 fuel nest c rest h1 h2 h3 h4 h5 h6 h7 h8 heq h9 h10 ih =>
    intro hlen
    simp only [lexLoop, h1, h2, h3, h4, h5, h6, h7, h8, h9, h10, Bool.false_eq_true,
      if_false, if_true, heq]
    simp only [depthsOk]
    refine ⟨by trivial, ?_⟩
    refine ih ?_
    simp at hlen
    have := length_dropWhile_le isDigit rest
    omega
  | case15 fuel nest c rest h1 h2 h3 h4 h5 h6 h7 h8 heq h9 h10 h11 h12 ih =>
    intro hlen
    simp only [lexLoop, h1, h2, h3, h4, h5, h6, h7, h8, h9, h10, h11, h12,
      Bool.false_eq_true, if_false, if_true, heq]
    have hc : c = '{' := by simpa using h12
    subst hc
    simp only [depthsOk]
    refine ⟨by trivial, ?_⟩
    refine ih ?_
    simp at hlen
    omega
  | case16 fuel nest c rest h1 h2 h3 h4 h5 h6 h7 h8 heq h9 h10 h11 h12 h13 ih =>
    intro hlen
    simp only [lexLoop, h1, h2, h3, h4, h5, h6, h7, h8, h9, h10, h11, h12, h13,
      Bool.false_eq_true, if_false, if_true, heq]
    have hc : c = '}' := by simpa using h13
    subst hc
    simp only [depthsOk]
    refine ⟨by trivial, ?_⟩
    refine ih ?_
    simp at hlen
    omega
  | case17 fuel nest c rest h1 h2 h3 h4 h5 h6 h7 h8 heq h9 h10 h11 h12 h13 ih =>
    intro hlen
    simp only [lexLoop, h1, h2, h3, h4, h5, h6, h7, h8, h9, h10, h11, h12, h13,
      Bool.false_eq_true, if_false, if_true, heq]
    have hc1 : ¬c = '{' := by simpa using h12
    have hc2 : ¬c = '}' := by simpa using h13
    simp only [depthsOk]
    rw [if_neg (fun hcon => hc1 (by simpa using hcon.2)),
      if_neg (fun hcon => hc2 (by simpa using hcon.2))]
    refine ⟨by trivial, ?_⟩
    refine ih ?_
    simp at hlen
    omega
  | case18 fuel nest c rest h1 h2 h3 h4 h5 h6 h7 h8 heq h9 h10 h11 ih =>
    intro hlen
    simp only [lexLoop, h1, h2, h3, h4, h5, h6, h7, h8, h9, h10, h11,
      Bool.false_eq_true, if_false, if_true, heq]
    simp only [depthsOk]
    refine ⟨by trivial, ?_⟩
    refine ih ?_
    simp at hlen
    omega

theorem depthsOk_get (ts : List PTok) : ∀ (n : Int), depthsOk n ts →
    ∀ (k : Nat) (hk : k < ts.length),
      (ts.get ⟨k, hk⟩).nestingLevel =
        n + (countOpen (ts.take (k + 1)) : Int) - (countClose (ts.take k) : Int) := by
  induction ts with
  | nil => intro n _ k hk; simp at hk
  | cons t rest ih =>
    intro n h k hk
    by_cases hopen : t.type = PTokType.bracket ∧ t.text = ['{']
    · simp only [depthsOk, if_pos hopen] at h
      have hob : isOpenBrace t = true := by simp [isOpenBrace, hopen.1, hopen.2]
      have hcb : isCloseBrace t = false := by simp [isCloseBrace, hopen.2]
      cases k with
      | zero =>
        simp [countOpen, countClose, List.countP_cons, hob, h.1]
      | succ k =>
        have hk2 : k < rest.length := by simpa using hk
        have := ih (n + 1) h.2 k hk2
        simp only [List.take_succ_cons, List.get_cons_succ]
        simp only [countOpen, countClose, List.countP_cons, hob, hcb] at this ⊢
        push_cast at this ⊢
        omega
    · by_cases hclose : t.type = PTokType.bracket ∧ t.text = ['}']
      · simp only [depthsOk, if_neg hopen, if_pos hclose] at h
        have hob : isOpenBrace t = false := by
          simp only [isOpenBrace, Bool.and_eq_false_iff]
          right
          simp [hclose.2]
        have hcb : isCloseBrace t = true := by simp [isCloseBrace, hclose.1, hclose.2]
        cases k with
        | zero =>
          simp [countOpen, countClose, List.countP_cons, hob, h.1]
        | succ k =>
          have hk2 : k < rest.length := by simpa using hk
          have := ih (n - 1) h.2 k hk2
          simp only [List.take_succ_cons, List.get_cons_succ]
          simp only [countOpen, countClose, List.countP_cons, hob, hcb] at this ⊢
          push_cast at this ⊢
          omega
      · simp only [depthsOk, if_neg hopen, if_neg hclose] at h
        have hob : isOpenBrace t = false := by
          cases htb : t.type == PTokType.bracket
          · simp [isOpenBrace, htb]
          · have : t.type = PTokType.bracket := by simpa using htb
            simp only [isOpenBrace, Bool.and_eq_false_iff]
            right
            have : ¬t.text = ['{'] := fun hcon => hopen ⟨this, hcon⟩
            simpa using this
        have hcb : isCloseBrace t = false := by
          cases htb : t.type == PTokType.bracket
          · simp [isCloseBrace, htb]
          · have htb2 : t.type = PTokType.bracket := by simpa using htb
            simp only [isCloseBrace, Bool.and_eq_false_iff]
            right
            have : ¬t.text = ['}'] := fun hcon => hclose ⟨htb2, hcon⟩
            simpa using this
        cases k with
        | zero =>
          simp [countOpen, countClose, List.countP_cons, hob, h.1]
        | succ k =>
          have hk2 : k < rest.length := by simpa using hk
          have := ih n h.2 k hk2
          simp only [List.take_succ_cons, List.get_cons_succ]
          simp only [countOpen, countClose, List.countP_cons, hob, hcb] at this ⊢
          push_cast at this ⊢
          omega

theorem depthsOk_nonneg (ts : List PTok) (h : depthsOk 0 ts)
    (hbal : prefixBalancedB ts = true) : ∀ t ∈ ts, 0 ≤ t.nestingLevel := by
  intro t ht
  obtain ⟨⟨k, hk⟩, heq⟩ := List.mem_iff_get.mp ht
  rw [← heq]
  rw [depthsOk_get ts 0 h k hk]
  have hbalk : countClose (ts.take k) ≤ countOpen (ts.take k) := by
    have := List.all_eq_true.mp hbal k (by
      simp [List.mem_range]
      omega)
    simpa using this
  have hmono : countOpen (ts.take k) ≤ countOpen (ts.take (k + 1)) := by
    rw [List.take_succ]
    simp only [countOpen, List.countP_append]
    omega
  omega

/-- C7 amended: every token stream produced by the pattern lexer follows the
brace discipline (depth changes only at curly bracket tokens, an opening
brace carrying and establishing the incremented depth and a closing brace
being emitted at the pre-decrement depth), and depth is non-negative for
every token provided no prefix of the stream closes more braces than it has
opened; on an unbalanced input the depth goes negative, as the
counterexample shows. -/
theorem depthDiscipline (cs : List Char) :
    depthsOk 0 (lexMatch cs) ∧
      (prefixBalancedB (lexMatch cs) = true → ∀ t ∈ lexMatch cs, 0 ≤ t.nestingLevel) := by
  have h := depthsOk_lexLoop cs.length 0 cs le_rfl
  exact ⟨h, fun hbal => depthsOk_nonneg _ h hbal⟩

/-- Witness for C7 amended on the balanced snippet of a single braced
identifier. -/
theorem depthDisciplineWitness :
    depthsOk 0 (lexMatch ['{', 'x', '}']) ∧
      ∀ t ∈ lexMatch ['{', 'x', '}'], 0 ≤ t.nestingLevel :=
  ⟨(depthDiscipline ['{', 'x', '}']).1,
   (depthDiscipline ['{', 'x', '}']).2 (by decide)⟩

theorem metaRun_le (ts : List PTok) : metaRun ts ≤ ts.length := by
  induction ts with
  | nil => simp [metaRun]
  | cons t rest ih =>
    simp only [metaRun]
    split
    · simpa using ih
    · simp

theorem wildLoopGo_isSome
    (cont : MatchState → Nat → Int → Option (MatchState × Option Nat))
    (sourceTokens : List SrcTok) (p nextTok : PTok) (cnl : Int)
    (h : ∀ st sj cnl2, (cont st sj cnl2).isSome) :
    ∀ (count sj : Nat) (st : MatchState),
      (wildLoopGo cont sourceTokens p nextTok cnl count sj st).isSome := by
  intro count
  induction count with
  | zero => intro sj st; simp [wildLoopGo]
  | succ n ih =>
    intro sj st
    have hstep : ∀ (st2 : MatchState),
        (match cont st2 sj (nextCnl sourceTokens sj cnl) with
          | none => none
          | some (st3, r) =>
            if r.isSome then some (st3, r)
            else wildLoopGo cont sourceTokens p nextTok cnl n (sj + 1) st3).isSome = true := by
      intro st2
      obtain ⟨pr, hpr⟩ := Option.isSome_iff_exists.mp (h st2 sj (nextCnl sourceTokens sj cnl))
      rw [hpr]
      cases pr with
      | mk st3 r =>
        by_cases hr : r.isSome
        · simp [hr]
        · simp only [hr, Bool.false_eq_true, if_false]
          exact ih (sj + 1) st3
    simp only [wildLoopGo]
    cases hget : sourceTokens[sj]? with
    | some t =>
      dsimp only
      by_cases h1 : t.nestingLevel = p.nestingLevel
      · by_cases h2 : t.text = nextTok.text
        · by_cases h3 : nextTok.text = ['}'] ∧ t.nestingLevel ≠ nextTok.nestingLevel
          · rw [if_neg (by simp [h1]), if_neg (by simp [h2]), if_pos h3]
            exact ih (sj + 1) st
          · rw [if_neg (by simp [h1]), if_neg (by simp [h2]), if_neg h3]
            exact hstep st
        · rw [if_neg (by simp [h1]), if_pos h2]
          exact ih (sj + 1) st
      · rw [if_pos h1]
        exact ih (sj + 1) st
    | none => exact hstep st

theorem recurseF_isSome (sourceTokens : List SrcTok) (patternTokens : List PTok)
    (srcLength : Nat) :
    ∀ (fuel : Nat) (st : MatchState) (si pi : Nat) (cnl : Int),
      pi ≤ patternTokens.length → patternTokens.length + 1 - pi ≤ fuel →
      (recurseF sourceTokens patternTokens srcLength fuel st si pi cnl).isSome := by
  intro fuel
  induction fuel with
  | zero => intro st si pi cnl hpi hf; omega
  | succ fuel ih =>
    intro st si pi cnl hpi hf
    simp only [recurseF]
    cases hget : patternTokens[pi]? with
    | none => simp
    | some p =>
      dsimp only
      have hpilt : pi < patternTokens.length := by
        have := List.getElem?_eq_some.mp hget
        exact this.1
      by_cases hc1 : p.type = PTokType.comment
      · rw [if_pos hc1]
        exact ih st si (pi + 1) cnl (by omega) (by omega)
      · rw [if_neg hc1]
        by_cases hc2 : p.type = PTokType.inserter
        · rw [if_pos hc2]
          exact ih _ si (pi + 1) cnl (by omega) (by omega)
        · rw [if_neg hc2]
          by_cases hc3 : p.type = PTokType.folder
          · rw [if_pos hc3]
            exact ih _ si (pi + 1) cnl (by omega) (by omega)
          · rw [if_neg hc3]
            by_cases hc4 : p.type = PTokType.wildcard
            · rw [if_pos hc4]
              have hnext : pi + 1 + metaRun (patternTokens.drop (pi + 1)) ≤
                  patternTokens.length := by
                have h1 := metaRun_le (patternTokens.drop (pi + 1))
                have h2 := List.length_drop (pi + 1) patternTokens
                omega
              cases hg2 : patternTokens[pi + 1 + metaRun (patternTokens.drop (pi + 1))]? with
              | none =>
                exact ih st sourceTokens.length _ cnl hnext (by omega)
              | some nextTok =>
                exact wildLoopGo_isSome _ sourceTokens p nextTok cnl
                  (fun st2 sj cnl2 => ih st2 sj (pi + 1) cnl2 (by omega) (by omega))
                  (sourceTokens.length + 1 - si) si st
            · rw [if_neg hc4]
              cases hg3 : sourceTokens[si]? with
              | none => simp
              | some s =>
                dsimp only
                by_cases hm : s.text = p.text ∧ s.nestingLevel = p.nestingLevel
                · rw [if_pos hm]
                  exact ih st (si + 1) (pi + 1) s.nestingLevel (by omega) (by omega)
                · rw [if_neg hm]
                  simp

/-- The fuel passed to the search by `findInsertionOffset` is sufficient: the
recursion never runs out, because every recursive call advances the pattern
cursor, so the modelled fuel is an invariant-preserving bound, not an
approximation of the JS recursion. -/
theorem findInsertionOffset_fuel_sufficient (sourceTokens : List SrcTok)
    (patternTokens : List PTok) (srcLength : Nat) :
    (recurseF sourceTokens patternTokens srcLength (patternTokens.length + 1)
      ⟨none, none⟩ 0 0 0).isSome :=
  recurseF_isSome sourceTokens patternTokens srcLength (patternTokens.length + 1)
    ⟨none, none⟩ 0 0 0 (Nat.zero_le _) (by omega)

end SmartPatcher
